import Mathlib

/-!
# Verification of the passporter privacy-discovery core

A shallow embedding of the discovery engine (`src/db/scraper.ts`) and its
batch scheduler (`src/db/server.ts`).  JavaScript strings are modelled as
`String`/`List Char`; external collaborators (the WHATWG URL parser, the
cheerio HTML parser, the network, the entry store) are modelled as explicit
functions or oracles passed to the embedded code.  Fallible JavaScript code
(`try`/`catch`) is modelled with `Except`.
-/

namespace Passporter

/-- JavaScript `s.toLowerCase()` on a list of characters. -/
def lowerL (s : List Char) : List Char := s.map Char.toLower

/-- JavaScript `s.trim()` on a list of characters (ASCII whitespace). -/
def jsTrimL (s : List Char) : List Char :=
  ((s.dropWhile Char.isWhitespace).reverse.dropWhile Char.isWhitespace).reverse

/-- JavaScript `s.split(sep)` for a single-character separator: the list of
(possibly empty) chunks between occurrences of `sep`; never empty. -/
def splitOnChar (sep : Char) : List Char → List (List Char)
  | [] => [[]]
  | c :: rest =>
    match splitOnChar sep rest with
    | [] => [[]]
    | h :: t => if c = sep then [] :: h :: t else (c :: h) :: t

/-- JavaScript `hay.includes(pat)` via an explicit prefix check. -/
def isPrefixOfL : List Char → List Char → Bool
  | [], _ => true
  | _ :: _, [] => false
  | a :: as, b :: bs => a == b && isPrefixOfL as bs

def containsSubL (pat : List Char) : List Char → Bool
  | [] => pat.isEmpty
  | c :: t => isPrefixOfL pat (c :: t) || containsSubL pat t

/-! ## Model of the WHATWG URL parser (`new URL(...)` from `node:url`)

The scraper only uses `new URL` through `.origin`, `.hostname` and
`.protocol` on `scheme://host[:port]`-shaped inputs.  The model below covers
that fragment: a scheme (letter followed by letters/digits/`+`/`-`/`.`),
`://`, a non-empty host running to the first `/`, `?`, `#` or `:`, and an
optional all-digit port.  Scheme and host are lower-cased and a default port
(http 80, https 443, ws 80, wss 443, ftp 21) is elided, as the real parser
does.  Userinfo, IPv6 bracket literals, percent-encoding and numeric port
normalisation are outside the model. -/

def isDigitC (c : Char) : Bool := 48 ≤ c.toNat && c.toNat ≤ 57

def isAlphaC (c : Char) : Bool :=
  (65 ≤ c.toNat && c.toNat ≤ 90) || (97 ≤ c.toNat && c.toNat ≤ 122)

def isSchemeChar (c : Char) : Bool :=
  isAlphaC c || isDigitC c || c == '+' || c == '-' || c == '.'

def isHostEnd (c : Char) : Bool := c == '/' || c == '?' || c == '#'

structure UrlRec where
  scheme : List Char
  host : List Char
  port : Option (List Char)
deriving DecidableEq, Repr

/-- Default port table used for origin serialisation (WHATWG special schemes
relevant to the scraper). -/
def defaultPortFor (scheme : List Char) : Option (List Char) :=
  if scheme = "http".data then some "80".data
  else if scheme = "https".data then some "443".data
  else if scheme = "ws".data then some "80".data
  else if scheme = "wss".data then some "443".data
  else if scheme = "ftp".data then some "21".data
  else none

/-- Port part of parsing: the input is what follows the host (starting with
`':'` when non-empty).  An empty port is dropped, digits are required, a
default port is elided. -/
def parsePortPart (scheme host' : List Char) : List Char → Option UrlRec
  | [] => some ⟨scheme, host', none⟩
  | _ :: p =>
    if p = [] then some ⟨scheme, host', none⟩
    else if p.all isDigitC then
      if defaultPortFor scheme = some p then some ⟨scheme, host', none⟩
      else some ⟨scheme, host', some p⟩
    else none

/-- Host-and-port part of parsing: split at the first `':'`, lower-case the
host, then handle the port. -/
def parseHostPort (scheme : List Char) (hp : List Char) : Option UrlRec :=
  if hp.takeWhile (fun c => !(c == ':')) = [] then none
  else parsePortPart scheme (lowerL (hp.takeWhile (fun c => !(c == ':'))))
    (hp.dropWhile (fun c => !(c == ':')))

/-- Scheme validation and dispatch once the input has been split at the
first `':'`; `rest` starts with that `':'` and must continue with `//`. -/
def parseAfterScheme (schemePart rest : List Char) : Option UrlRec :=
  match schemePart, rest with
  | c0 :: cs, _ :: s1 :: s2 :: r =>
    if s1 = '/' ∧ s2 = '/' then
      if isAlphaC c0 && (c0 :: cs).all isSchemeChar then
        parseHostPort (lowerL (c0 :: cs)) (r.takeWhile (fun c => !(isHostEnd c)))
      else none
    else none
  | _, _ => none

/-- Model of `new URL(s)` restricted to `scheme://host[:port][/...]`. -/
def parseUrlChars (s : List Char) : Option UrlRec :=
  parseAfterScheme (s.takeWhile (fun c => !(c == ':'))) (s.dropWhile (fun c => !(c == ':')))

def portTail : Option (List Char) → List Char
  | none => []
  | some p => ':' :: p

/-- `u.origin` for a parsed URL: `scheme://host` plus any non-default port. -/
def originChars (u : UrlRec) : List Char :=
  u.scheme ++ ':' :: '/' :: '/' :: (u.host ++ portTail u.port)

/-- Shape facts that hold of every record produced by `parseUrlChars` and
make its origin string re-parse to the same record. -/
structure UrlWF (u : UrlRec) : Prop where
  scheme_chars : ∀ c ∈ u.scheme, isSchemeChar c = true
  scheme_head : ∃ c0 cs, u.scheme = c0 :: cs ∧ isAlphaC c0 = true
  scheme_lower : lowerL u.scheme = u.scheme
  host_ne : u.host ≠ []
  host_chars : ∀ c ∈ u.host, (c == ':') = false ∧ isHostEnd c = false
  host_lower : lowerL u.host = u.host
  port_ok : ∀ p, u.port = some p → p ≠ [] ∧ p.all isDigitC = true ∧
    defaultPortFor u.scheme ≠ some p

/-! ## The Origin Normalizer (`src/db/scraper.ts`) -/

/-- `normalizeOrigin(rawUrl)`: the origin of a parseable URL, the input
unchanged otherwise (lines 43-50 of `scraper.ts`). -/
def normalizeOrigin (rawUrl : String) : String :=
  match parseUrlChars rawUrl.data with
  | some u => String.mk (originChars u)
  | none => rawUrl

/-- `originHasSubdomain(origin)`: more than two dot-separated hostname
labels; `false` when parsing fails (lines 85-91). -/
def originHasSubdomain (origin : String) : Bool :=
  match parseUrlChars origin.data with
  | some u => decide (2 < (splitOnChar '.' u.host).length)
  | none => false

def joinDots : List (List Char) → List Char
  | [] => []
  | [l] => l
  | l :: ls => l ++ '.' :: joinDots ls

/-- `getMainDomainOrigin(origin)`: drop the leftmost hostname label, keep
the scheme; `null` for two or fewer labels or a parse failure
(lines 73-83). -/
def getMainDomainOrigin (origin : String) : Option String :=
  match parseUrlChars origin.data with
  | none => none
  | some u =>
    if (splitOnChar '.' u.host).length ≤ 2 then none
    else some (String.mk (u.scheme ++ ':' :: '/' :: '/' ::
      joinDots ((splitOnChar '.' u.host).drop 1)))

/-! ## The Content Extractor (`src/db/scraper.ts`)

The cheerio HTML parser is external: a parsed document is modelled as its
anchor elements in document order plus its rendered text, and `cheerio.load`
as an oracle `String → Html` carried in `JsEnv`.  Likewise `new URL(href,
base).toString()` (`resolveLink`) and the email regular-expression scan are
oracles. -/

/-- `ASSET_EXTENSIONS` (lines 12-33): extensions marking a filename such as
`icon@3x.png`. -/
def ASSET_EXTENSIONS : List (List Char) :=
  ["png".data, "jpg".data, "jpeg".data, "gif".data, "svg".data, "webp".data,
   "ico".data, "bmp".data, "tiff".data, "avif".data, "pdf".data, "woff".data,
   "woff2".data, "ttf".data, "eot".data, "otf".data, "mp4".data, "webm".data,
   "mp3".data, "wav".data]

/-- `isLikelyEmail(s)` (lines 35-41): trim and lower-case, require an `'@'`,
split on `'@'` and take element 1, take the last dot-separated piece of
that, reject asset extensions. -/
def isLikelyEmailL (s : List Char) : Bool :=
  if !((lowerL (jsTrimL s)).contains '@') then false
  else
    !(ASSET_EXTENSIONS.contains
      ((splitOnChar '.' ((splitOnChar '@' (lowerL (jsTrimL s))).getD 1 [])).getLastD []))

def isLikelyEmail (s : String) : Bool := isLikelyEmailL s.data

/-- `buildPrivacyCandidates(origin)` (lines 149-159): trailing slashes
stripped, five fixed suffixes in priority order. -/
def privacySuffixes : List String :=
  ["/privacy", "/privacy-policy", "/privacy_policy", "/legal/privacy", "/policies/privacy"]

/-- `origin.replace(/\/+$/, "")`: strip every trailing `'/'`. -/
def stripTrailingSlashes (s : String) : String :=
  String.mk ((s.data.reverse.dropWhile (fun c => c == '/')).reverse)

def buildPrivacyCandidates (origin : String) : List String :=
  privacySuffixes.map (fun s => stripTrailingSlashes origin ++ s)

structure Anchor where
  href : Option String
  text : String
deriving DecidableEq, Repr

structure Html where
  anchors : List Anchor
  text : String
deriving DecidableEq, Repr

/-- External collaborators of the scraper: the network (`fetchText` succeeds
with a body or throws), `cheerio.load`, URL resolution against a base, and
the e-mail regex scan over rendered text. -/
structure JsEnv where
  fetchAvail : String → Option String
  parse : String → Html
  resolve : String → String → Option String
  regexMatches : String → List String

/-- JavaScript `Set` insertion: keep first occurrence order, no
duplicates. -/
def addEmail (acc : List String) (e : String) : List String :=
  if acc.contains e then acc else acc ++ [e]

/-- The candidate e-mail taken from a `mailto:` href (line 108-112): strip
the scheme, drop everything from `'?'`, trim. -/
def mailtoCandidate (href : String) : String :=
  ((href.drop 7).takeWhile (fun c => !(c == '?'))).trim

/-- `collectEmailsFromHtml(html, emails)` (lines 101-125): `mailto:` anchors
first, then regex matches over the rendered text, both validated by
`isLikelyEmail` and accumulated into the same set. -/
def collectEmailsFromHtml (env : JsEnv) (htmlSrc : String) (emails : List String) :
    List String :=
  let doc := env.parse htmlSrc
  let afterMailto :=
    (doc.anchors.filter (fun a => (a.href.getD "").startsWith "mailto:")).foldl
      (fun acc a =>
        let email := mailtoCandidate (a.href.getD "")
        if email = "" then acc
        else if !(isLikelyEmail email) then acc
        else addEmail acc email) emails
  (env.regexMatches doc.text).foldl
    (fun acc m => if isLikelyEmail m then addEmail acc m else acc) afterMailto

/-- Does an anchor's visible text or href contain "privacy",
case-insensitively (line 138)? -/
def anchorMatches (a : Anchor) : Bool :=
  containsSubL "privacy".data (lowerL a.text.data) ||
  containsSubL "privacy".data (lowerL (a.href.getD "").data)

/-- The `$("a[href]").each` loop of `findPrivacyLink` (lines 131-144): keep
the first anchor that matches and resolves. -/
def findPrivacyLinkGo (resolve : String → String → Option String) (origin : String) :
    List Anchor → Option String
  | [] => none
  | a :: rest =>
    if anchorMatches a then
      match resolve origin (a.href.getD "") with
      | some r => some r
      | none => findPrivacyLinkGo resolve origin rest
    else findPrivacyLinkGo resolve origin rest

/-- `findPrivacyLink(html, origin)` (lines 127-147). -/
def findPrivacyLink (env : JsEnv) (htmlSrc : String) (origin : String) : Option String :=
  findPrivacyLinkGo env.resolve origin
    ((env.parse htmlSrc).anchors.filter (fun a => a.href.isSome))

structure ScrapeResult where
  privacyUrl : Option String
  emails : List String
deriving DecidableEq, Repr

/-- The candidate loop of `scrapeOrigin` (lines 181-192).  Returns the list
of candidate URLs actually fetched, the chosen `privacyUrl`, and the
accumulated e-mails: the first candidate that fetches successfully is kept
and the loop breaks. -/
def tryCandidates (env : JsEnv) (emails : List String) :
    List String → List String × Option String × List String
  | [] => ([], none, emails)
  | c :: rest =>
    match env.fetchAvail c with
    | some html => ([c], some c, collectEmailsFromHtml env html emails)
    | none =>
      match tryCandidates env emails rest with
      | (fetched, p, es) => (c :: fetched, p, es)

/-- `scrapeOrigin(origin)` (lines 161-206): homepage fetch (failure
tolerated), privacy-link detection and homepage e-mails, then either the
candidate loop or a fetch of the detected link. -/
def scrapeOrigin (env : JsEnv) (origin : String) : ScrapeResult :=
  match env.fetchAvail origin with
  | none =>
    match tryCandidates env [] (buildPrivacyCandidates origin) with
    | (_, p, es) => ⟨p, es⟩
  | some homepageHtml =>
    let emails1 := collectEmailsFromHtml env homepageHtml []
    match findPrivacyLink env homepageHtml origin with
    | none =>
      match tryCandidates env emails1 (buildPrivacyCandidates origin) with
      | (_, p, es) => ⟨p, es⟩
    | some purl =>
      match env.fetchAvail purl with
      | some html2 => ⟨some purl, collectEmailsFromHtml env html2 emails1⟩
      | none => ⟨some purl, emails1⟩

/-! ## The Discovery Orchestrator wrapper (`findPrivacyPolicyAndEmails`)

For claim C1 the two `scrapeOrigin` calls are treated as an oracle
`scrape : String → Bool → Except String ScrapeResult` (origin, whether the
shared 30s abort signal is attached): the wrapper's own control flow —
`try`/`catch` collapse, the subdomain-widening retry, the merge — is the
code under verification. -/

/-- JavaScript truthiness test `!x` for a `string | null` value. -/
def jsFalsyOpt : Option String → Bool
  | none => true
  | some s => s == ""

/-- The `try { result = await scrapeOrigin(...) } catch { result = ... }`
of lines 216-223. -/
def firstAttemptResult (scrape : String → Bool → Except String ScrapeResult)
    (rawUrl : String) : ScrapeResult :=
  match scrape (normalizeOrigin rawUrl) true with
  | .ok r => r
  | .error _ => ⟨none, []⟩

/-- `findPrivacyPolicyAndEmails(rawUrl)` (lines 208-248), in `Except` to
record that every failure path is caught. -/
def findPrivacyPolicyAndEmailsE (scrape : String → Bool → Except String ScrapeResult)
    (rawUrl : String) : Except String ScrapeResult :=
  if jsFalsyOpt (firstAttemptResult scrape rawUrl).privacyUrl &&
      (firstAttemptResult scrape rawUrl).emails.isEmpty &&
      originHasSubdomain (normalizeOrigin rawUrl) then
    match getMainDomainOrigin (normalizeOrigin rawUrl) with
    | some mainOrigin =>
      match scrape mainOrigin false with
      | .ok mainResult =>
        .ok ⟨mainResult.privacyUrl.or (firstAttemptResult scrape rawUrl).privacyUrl,
          ((firstAttemptResult scrape rawUrl).emails ++ mainResult.emails).eraseDups⟩
      | .error _ => .ok (firstAttemptResult scrape rawUrl)
    | none => .ok (firstAttemptResult scrape rawUrl)
  else .ok (firstAttemptResult scrape rawUrl)

/-! ## Per-entry processing (`scrapeEntry`, `src/db/server.ts` lines 137-181)

The Prisma store is external; an entry row is modelled by the fields the
claims mention, and each `db.entry.update({data})` as the corresponding
partial record update.  The store serialises `scrapedEmails` as a JSON
string; the model keeps the list itself.  The discovery call is an oracle
outcome `Except String ScrapeResult` (an `Error`'s `.message` is the
`String`). -/

structure Entry where
  url : String
  status : String
  privacyUrl : Option String
  scrapedEmails : Option (List String)
  errorMessage : Option String
deriving DecidableEq, Repr

/-- `update({status: 'in_progress', errorMessage: null})` (lines 143-146). -/
def updInProgress (e : Entry) : Entry :=
  { e with status := "in_progress", errorMessage := none }

/-- `update({status: 'no_results'})` (lines 152-155). -/
def updNoResults (e : Entry) : Entry :=
  { e with status := "no_results" }

/-- `update({privacyUrl, scrapedEmails, status: 'done', errorMessage: null})`
(lines 157-165). -/
def updDone (e : Entry) (p : Option String) (emails : List String) : Entry :=
  { e with
    privacyUrl := p
    scrapedEmails := some emails
    status := "done"
    errorMessage := none }

/-- `update({status: 'error', errorMessage})` (lines 170-173). -/
def updError (e : Entry) (msg : String) : Entry :=
  { e with status := "error", errorMessage := some msg }

/-- The body of the `try` block (lines 149-166): the `no_results`/`done`
decision, or the discovery's escaping exception. -/
def scrapeBody (e : Entry) : Except String ScrapeResult → Except String Entry
  | .error msg => .error msg
  | .ok r =>
    if jsFalsyOpt r.privacyUrl && r.emails.isEmpty then .ok (updNoResults (updInProgress e))
    else .ok (updDone (updInProgress e) r.privacyUrl r.emails)

/-- The status pipeline of `scrapeEntry` on an existing entry: the
`in_progress` transition, then the `try`/`catch` of lines 148-174. -/
def scrapeEntryE (e : Entry) (disc : Except String ScrapeResult) : Except String Entry :=
  match scrapeBody e disc with
  | .ok e2 => .ok e2
  | .error err => .ok (updError (updInProgress e) (err.take 500))

/-! ## The Batch Scheduler (`processScrapeQueue`, `src/db/server.ts` lines
198-234)

`processScrapeQueue` is single-threaded JavaScript whose only
nondeterminism is the order in which in-flight `scrapeEntry` promises
settle.  The model is a state machine: `processNext`'s `while` loop is
`startLoop`, and each settled promise is a `finishStep` whose index choice
(`i % inFlight.length`) is the scheduler's.  `resolveCount` counts calls to
the completion promise's `resolve`. -/

structure SchedState where
  queue : List Nat
  inFlight : List Nat
  started : List Nat
  finished : List Nat
  resolveCount : Nat
deriving DecidableEq, Repr

/-- The `while (activeCount < concurrency && queue.length > 0)` loop
(lines 209-225): shift the queue head, raise the active count, launch it. -/
def startLoop (conc : Nat) : List Nat → List Nat → List Nat →
    List Nat × List Nat × List Nat
  | [], fl, st => ([], fl, st)
  | id :: rest, fl, st =>
    if fl.length < conc then startLoop conc rest (fl ++ [id]) (st ++ [id])
    else (id :: rest, fl, st)

/-- `processNext()` (lines 208-230): run the start loop, then
`if (activeCount === 0 && queue.length === 0) resolve()`. -/
def processNext (conc : Nat) (s : SchedState) : SchedState :=
  let r := startLoop conc s.queue s.inFlight s.started
  if r.2.1.isEmpty && r.1.isEmpty then ⟨r.1, r.2.1, r.2.2, s.finished, s.resolveCount + 1⟩
  else ⟨r.1, r.2.1, r.2.2, s.finished, s.resolveCount⟩

/-- One settled `scrapeEntry` promise: the `.finally` handler of lines
214-221 — decrement the active count, then `processNext()` if the queue is
non-empty, else `resolve()` once nothing is active.  `i` picks which
in-flight discovery finished. -/
def settleState (s : SchedState) (i : Nat) : SchedState :=
  ⟨s.queue, s.inFlight.eraseIdx (i % s.inFlight.length), s.started,
    s.finished ++ [s.inFlight.getD (i % s.inFlight.length) 0], s.resolveCount⟩

def finishStep (conc : Nat) (s : SchedState) (i : Nat) : SchedState :=
  if s.inFlight.length = 0 then s
  else if (settleState s i).queue.isEmpty then
    (if (settleState s i).inFlight.isEmpty then
      { settleState s i with resolveCount := (settleState s i).resolveCount + 1 }
    else settleState s i)
  else processNext conc (settleState s i)

def initSched (ids : List Nat) : SchedState := ⟨ids, [], [], [], 0⟩

/-- A whole run of `processScrapeQueue(entryIds, conc)`: the initial
`processNext()`, then the settle events listed in `sched`. -/
def runSched (conc : Nat) (ids : List Nat) (sched : List Nat) : SchedState :=
  sched.foldl (finishStep conc) (processNext conc (initSched ids))

/-- The state invariant of `processScrapeQueue` for concurrency ≥ 1:
submission-order starts, in-flight/finished bookkeeping, the concurrency
ceiling, queue-nonempty saturation, and `resolve` fired exactly on
completion. -/
def SchedInv (conc : Nat) (ids : List Nat) (s : SchedState) : Prop :=
  s.started ++ s.queue = ids ∧
  s.inFlight.length + s.finished.length = s.started.length ∧
  s.inFlight.length ≤ conc ∧
  (s.queue ≠ [] → s.inFlight.length = conc) ∧
  s.resolveCount = (if s.queue = [] ∧ s.inFlight = [] then 1 else 0)

/-! ### Definitions supporting claim statements and witnesses -/

/-- The validation step as the spec's words have it — "the substring after
the LAST `@`" — for comparison with the code's `split("@")[1]`. -/
def isLikelyEmailLastAt (s : String) : Bool :=
  if !((lowerL (jsTrimL s.data)).contains '@') then false
  else
    !(ASSET_EXTENSIONS.contains
      ((splitOnChar '.' ((splitOnChar '@' (lowerL (jsTrimL s.data))).getLastD [])).getLastD []))

/-- "The substring after the first `@`, up to the next `@`" — the amended
description of what `split("@")[1]` selects. -/
def afterFirstAt (t : List Char) : List Char :=
  ((t.dropWhile (fun c => !(c == '@'))).drop 1).takeWhile (fun c => !(c == '@'))

/-- "Its final dot-separated segment". -/
def lastDotSegment (t : List Char) : List Char :=
  (splitOnChar '.' t).getLastD []

/-- A network where every fetch throws. -/
def scrapeFailAll : String → Bool → Except String ScrapeResult :=
  fun _ _ => .error "network down"

def envC5 : JsEnv where
  fetchAvail := fun u => if u = "https://site.example/privacy-policy" then some "<html>" else none
  parse := fun _ => ⟨[], ""⟩
  resolve := fun _ _ => none
  regexMatches := fun _ => []

def envC6 : JsEnv where
  fetchAvail := fun _ => none
  parse := fun _ => ⟨[⟨some "/about", "About us"⟩, ⟨some "/privacy", "Privacy Policy"⟩,
    ⟨some "/privacy-policy", "Also privacy"⟩], ""⟩
  resolve := fun base href => some (base ++ href)
  regexMatches := fun _ => []

/-- An entry holding data from an earlier successful discovery. -/
def entStale : Entry :=
  ⟨"https://x.example", "done", some "https://x.example/privacy", some ["old@x.example"], none⟩

/-! ## Theorems -/

/-! ## Character-level model of JavaScript string primitives

`Char.toLower` in Lean lower-cases exactly the basic latin letters, which
matches what `String.prototype.toLowerCase` does on the ASCII fragment the
scraper manipulates. -/

theorem toNat_ofNat_valid (n : Nat) (h : n.isValidChar) : (Char.ofNat n).toNat = n := by
  simp [Char.ofNat, dif_pos h, Char.ofNatAux, Char.toNat, UInt32.toNat, BitVec.toNat_ofNatLt]

theorem char_eq_of_toNat {a b : Char} (h : a.toNat = b.toNat) : a = b := by
  apply Char.ext
  apply UInt32.ext
  exact h

theorem char_eq_iff_toNat {a b : Char} : a = b ↔ a.toNat = b.toNat :=
  ⟨fun h => by rw [h], char_eq_of_toNat⟩

theorem toLower_toNat (c : Char) :
    (Char.toLower c).toNat = if 65 ≤ c.toNat ∧ c.toNat ≤ 90 then c.toNat + 32 else c.toNat := by
  simp only [Char.toLower]
  split
  · next h => rw [toNat_ofNat_valid _ (Or.inl (by omega))]
  · rfl

theorem toLower_idem (c : Char) : c.toLower.toLower = c.toLower := by
  apply char_eq_of_toNat
  have h1 := toLower_toNat c
  have h2 := toLower_toNat c.toLower
  by_cases h : 65 ≤ c.toNat ∧ c.toNat ≤ 90
  · rw [if_pos h] at h1
    rw [h2, h1, if_neg (by omega)]
  · rw [if_neg h] at h1
    rw [h2, h1, if_neg h]

/-- A character whose code point is below 97 (so in particular `':'`, `'/'`,
`'?'`, `'#'`, `'.'` and every digit) is fixed under `toLower`, and is never
the image of a different character. -/
theorem toLower_small_eq {c d : Char} (hd : d.toNat < 97) (h : c.toLower = d) : c = d := by
  have h1 := toLower_toNat c
  rw [h] at h1
  by_cases hc : 65 ≤ c.toNat ∧ c.toNat ≤ 90
  · rw [if_pos hc] at h1
    omega
  · rw [if_neg hc] at h1
    exact (char_eq_of_toNat h1).symm

theorem lowerL_idem (s : List Char) : lowerL (lowerL s) = lowerL s := by
  unfold lowerL
  rw [List.map_map]
  apply List.map_congr_left
  intro c _
  exact toLower_idem c

theorem splitOnChar_ne_nil (sep : Char) (l : List Char) : splitOnChar sep l ≠ [] := by
  cases l with
  | nil => simp [splitOnChar]
  | cons c rest =>
    simp only [splitOnChar]
    cases splitOnChar sep rest with
    | nil => simp
    | cons h t => by_cases hc : c = sep <;> simp [hc]

/-! ### Generic `takeWhile`/`dropWhile` helpers -/

theorem takeWhile_append_all {α : Type} (p : α → Bool) (l1 l2 : List α)
    (h : ∀ a ∈ l1, p a = true) :
    (l1 ++ l2).takeWhile p = l1 ++ l2.takeWhile p := by
  induction l1 with
  | nil => simp
  | cons a as ih =>
    have ha := h a (by simp)
    simp only [List.cons_append, List.takeWhile_cons, ha, if_true]
    rw [ih (fun x hx => h x (by simp [hx]))]

theorem dropWhile_append_all {α : Type} (p : α → Bool) (l1 l2 : List α)
    (h : ∀ a ∈ l1, p a = true) :
    (l1 ++ l2).dropWhile p = l2.dropWhile p := by
  induction l1 with
  | nil => simp
  | cons a as ih =>
    have ha := h a (by simp)
    simp only [List.cons_append, List.dropWhile_cons, ha, if_true]
    exact ih (fun x hx => h x (by simp [hx]))

theorem mem_takeWhile_mem {α : Type} {p : α → Bool} {l : List α} {a : α}
    (h : a ∈ l.takeWhile p) : a ∈ l := by
  induction l with
  | nil => simp at h
  | cons b bs ih =>
    rw [List.takeWhile_cons] at h
    by_cases hb : p b = true
    · rw [if_pos hb] at h
      rcases List.mem_cons.mp h with h | h
      · simp [h]
      · simp [ih h]
    · rw [if_neg hb] at h
      simp at h

theorem pred_of_mem_takeWhile {α : Type} {p : α → Bool} {l : List α} {a : α}
    (h : a ∈ l.takeWhile p) : p a = true := by
  induction l with
  | nil => simp at h
  | cons b bs ih =>
    rw [List.takeWhile_cons] at h
    by_cases hb : p b = true
    · rw [if_pos hb] at h
      rcases List.mem_cons.mp h with h | h
      · rw [h]; exact hb
      · exact ih h
    · rw [if_neg hb] at h
      simp at h

theorem isSchemeChar_iff (c : Char) :
    isSchemeChar c = true ↔
      (65 ≤ c.toNat ∧ c.toNat ≤ 90) ∨ (97 ≤ c.toNat ∧ c.toNat ≤ 122) ∨
      (48 ≤ c.toNat ∧ c.toNat ≤ 57) ∨ c.toNat = 43 ∨ c.toNat = 45 ∨ c.toNat = 46 := by
  simp only [isSchemeChar, isAlphaC, isDigitC, Bool.or_eq_true, Bool.and_eq_true,
    decide_eq_true_eq, beq_iff_eq, char_eq_iff_toNat]
  tauto

theorem isSchemeChar_toLower {c : Char} (h : isSchemeChar c = true) :
    isSchemeChar c.toLower = true := by
  rw [isSchemeChar_iff] at h ⊢
  have ht := toLower_toNat c
  by_cases hc : 65 ≤ c.toNat ∧ c.toNat ≤ 90
  · rw [if_pos hc] at ht
    omega
  · rw [if_neg hc] at ht
    omega

theorem isSchemeChar_ne_colon {c : Char} (h : isSchemeChar c = true) : (c == ':') = false := by
  rw [isSchemeChar_iff] at h
  have : c.toNat ≠ 58 := by omega
  simp only [beq_eq_false_iff_ne, ne_eq, char_eq_iff_toNat]
  simpa using this

theorem isAlphaC_toLower {c : Char} (h : isAlphaC c = true) : isAlphaC c.toLower = true := by
  simp only [isAlphaC, Bool.or_eq_true, Bool.and_eq_true, decide_eq_true_eq] at h ⊢
  have ht := toLower_toNat c
  by_cases hc : 65 ≤ c.toNat ∧ c.toNat ≤ 90
  · rw [if_pos hc] at ht
    omega
  · rw [if_neg hc] at ht
    omega

theorem isDigitC_facts {c : Char} (h : isDigitC c = true) :
    (c == ':') = false ∧ isHostEnd c = false := by
  simp only [isDigitC, Bool.and_eq_true, decide_eq_true_eq] at h
  constructor
  · have : c.toNat ≠ 58 := by omega
    simp only [beq_eq_false_iff_ne, ne_eq, char_eq_iff_toNat]
    simpa using this
  · simp only [isHostEnd, Bool.or_eq_false_iff, beq_eq_false_iff_ne, ne_eq, char_eq_iff_toNat,
      show ('/' : Char).toNat = 47 from rfl, show ('?' : Char).toNat = 63 from rfl,
      show ('#' : Char).toNat = 35 from rfl]
    omega

/-- The toLower image of a character other than `':'`, `'/'`, `'?'`, `'#'`
keeps being different from it (their code points are `< 97`). -/
theorem toLower_ne_of_ne {c d : Char} (hd : d.toNat < 97) (h : (c == d) = false) :
    (c.toLower == d) = false := by
  simp only [beq_eq_false_iff_ne, ne_eq] at h ⊢
  intro hcl
  exact h (toLower_small_eq hd hcl)

theorem takeWhile_all {α : Type} (p : α → Bool) (l : List α)
    (h : ∀ a ∈ l, p a = true) : l.takeWhile p = l := by
  induction l with
  | nil => simp
  | cons a as ih =>
    rw [List.takeWhile_cons, if_pos (h a (by simp))]
    rw [ih (fun x hx => h x (by simp [hx]))]

theorem lowerL_ne_nil {l : List Char} (h : l ≠ []) : lowerL l ≠ [] := by
  unfold lowerL
  simpa using h

theorem parseHostPort_wf (scheme hp : List Char) (u : UrlRec)
    (hhp : ∀ c ∈ hp, isHostEnd c = false)
    (hs2 : ∀ c ∈ scheme, isSchemeChar c = true)
    (hs3 : ∃ c0 cs, scheme = c0 :: cs ∧ isAlphaC c0 = true)
    (hs4 : lowerL scheme = scheme)
    (h : parseHostPort scheme hp = some u) : UrlWF u := by
  unfold parseHostPort at h
  set host := hp.takeWhile (fun c => !(c == ':')) with hhost
  have hmemhost : ∀ c ∈ host, (c == ':') = false ∧ isHostEnd c = false := by
    intro c hc
    refine ⟨?_, hhp c (mem_takeWhile_mem hc)⟩
    have := pred_of_mem_takeWhile hc
    simpa using this
  have hmemlower : ∀ c ∈ lowerL host, (c == ':') = false ∧ isHostEnd c = false := by
    intro c hc
    obtain ⟨d, hd, rfl⟩ := List.mem_map.mp hc
    obtain ⟨hd1, hd2⟩ := hmemhost d hd
    refine ⟨toLower_ne_of_ne (by decide) hd1, ?_⟩
    simp only [isHostEnd, Bool.or_eq_false_iff] at hd2 ⊢
    exact ⟨⟨toLower_ne_of_ne (by decide) hd2.1.1,
      toLower_ne_of_ne (by decide) hd2.1.2⟩, toLower_ne_of_ne (by decide) hd2.2⟩
  by_cases hne : host = []
  · rw [if_pos hne] at h
    exact absurd h (by simp)
  · rw [if_neg hne] at h
    have hbase : ∀ port, u = ⟨scheme, lowerL host, port⟩ →
        (∀ p, port = some p → p ≠ [] ∧ p.all isDigitC = true ∧
          defaultPortFor scheme ≠ some p) → UrlWF u := by
      rintro port rfl hport
      exact ⟨hs2, hs3, hs4, lowerL_ne_nil hne, hmemlower, lowerL_idem host, hport⟩
    rcases hdrop : hp.dropWhile (fun c => !(c == ':')) with _ | ⟨c, p⟩
    · rw [hdrop] at h
      simp only [parsePortPart, Option.some_inj] at h
      exact hbase none h.symm (by simp)
    · rw [hdrop] at h
      simp only [parsePortPart] at h
      by_cases hpnil : p = []
      · rw [if_pos hpnil] at h
        simp only [Option.some_inj] at h
        exact hbase none h.symm (by simp)
      · rw [if_neg hpnil] at h
        by_cases hdig : p.all isDigitC = true
        · rw [if_pos hdig] at h
          by_cases hdef : defaultPortFor scheme = some p
          · rw [if_pos hdef] at h
            simp only [Option.some_inj] at h
            exact hbase none h.symm (by simp)
          · rw [if_neg hdef] at h
            simp only [Option.some_inj] at h
            refine hbase (some p) h.symm ?_
            intro q hq
            obtain rfl : p = q := by injection hq
            exact ⟨hpnil, hdig, hdef⟩
        · rw [if_neg hdig] at h
          exact absurd h (by simp)

theorem parseUrlChars_wf (s : List Char) (u : UrlRec)
    (h : parseUrlChars s = some u) : UrlWF u := by
  rw [parseUrlChars] at h
  rcases htake : s.takeWhile (fun c => !(c == ':')) with _ | ⟨c0, cs⟩ <;> rw [htake] at h
  · exact absurd h (by simp [parseAfterScheme])
  rcases hdrop : s.dropWhile (fun c => !(c == ':')) with _ | ⟨d, _ | ⟨s1, _ | ⟨s2, r⟩⟩⟩ <;>
    rw [hdrop] at h
  · exact absurd h (by simp [parseAfterScheme])
  · exact absurd h (by simp [parseAfterScheme])
  · exact absurd h (by simp [parseAfterScheme])
  simp only [parseAfterScheme] at h
  by_cases hsl : s1 = '/' ∧ s2 = '/'
  · rw [if_pos hsl] at h
    by_cases hcond : (isAlphaC c0 && (c0 :: cs).all isSchemeChar) = true
    · rw [if_pos hcond] at h
      rw [Bool.and_eq_true, List.all_eq_true] at hcond
      refine parseHostPort_wf _ _ _ ?_ ?_ ?_ ?_ h
      · intro c hc
        have := pred_of_mem_takeWhile hc
        simpa using this
      · intro c hc
        obtain ⟨e, he, rfl⟩ := List.mem_map.mp hc
        exact isSchemeChar_toLower (hcond.2 e he)
      · exact ⟨c0.toLower, lowerL cs, rfl, isAlphaC_toLower hcond.1⟩
      · exact lowerL_idem _
    · rw [if_neg hcond] at h
      exact absurd h (by simp)
  · rw [if_neg hsl] at h
    exact absurd h (by simp)

theorem parseUrlChars_originChars (u : UrlRec) (h : UrlWF u) :
    parseUrlChars (originChars u) = some u := by
  obtain ⟨sch, host, port⟩ := u
  obtain ⟨c0, cs, hsch, hc0⟩ := h.scheme_head
  simp only at hsch
  have hschemeAll : ∀ c ∈ sch, (fun c => !(c == ':')) c = true := by
    intro c hc
    simp [isSchemeChar_ne_colon (h.scheme_chars c hc)]
  have hhostColon : ∀ c ∈ host, (fun c => !(c == ':')) c = true := by
    intro c hc
    simp [(h.host_chars c hc).1]
  have hhostEnd : ∀ c ∈ host, (fun c => !(isHostEnd c)) c = true := by
    intro c hc
    simp [(h.host_chars c hc).2]
  have hportColon : (portTail port).takeWhile (fun c => !(c == ':')) = [] := by
    cases port with
    | none => simp [portTail]
    | some p => simp [portTail]
  have hportEnd : ∀ c ∈ portTail port, (fun c => !(isHostEnd c)) c = true := by
    cases port with
    | none => simp [portTail]
    | some p =>
      intro c hc
      simp only [portTail, List.mem_cons] at hc
      rcases hc with rfl | hc
      · decide
      · have hp := (h.port_ok p rfl).2.1
        rw [List.all_eq_true] at hp
        simp [(isDigitC_facts (hp c hc)).2]
  have htake : (originChars ⟨sch, host, port⟩).takeWhile (fun c => !(c == ':')) = sch := by
    unfold originChars
    rw [takeWhile_append_all _ _ _ hschemeAll]
    simp
  have hdrop : (originChars ⟨sch, host, port⟩).dropWhile (fun c => !(c == ':')) =
      ':' :: '/' :: '/' :: (host ++ portTail port) := by
    unfold originChars
    rw [dropWhile_append_all _ _ _ hschemeAll]
    simp
  rw [parseUrlChars, htake, hdrop, hsch]
  simp only [parseAfterScheme]
  rw [if_pos ⟨trivial, trivial⟩]
  have hcond : (isAlphaC c0 && (c0 :: cs).all isSchemeChar) = true := by
    rw [Bool.and_eq_true, List.all_eq_true]
    exact ⟨hc0, fun c hc => h.scheme_chars c (by rw [hsch]; exact hc)⟩
  rw [if_pos hcond, ← hsch]
  have hlower : lowerL sch = sch := h.scheme_lower
  rw [hlower]
  have hhp : (host ++ portTail port).takeWhile (fun c => !(isHostEnd c)) =
      host ++ portTail port := by
    apply takeWhile_all
    intro c hc
    rcases List.mem_append.mp hc with hc | hc
    · exact hhostEnd c hc
    · exact hportEnd c hc
  rw [hhp]
  rw [parseHostPort]
  rw [takeWhile_append_all _ _ _ hhostColon, dropWhile_append_all _ _ _ hhostColon]
  rw [hportColon, List.append_nil, if_neg h.host_ne, h.host_lower]
  cases port with
  | none => simp [portTail, parsePortPart]
  | some p =>
    obtain ⟨hp1, hp2, hp3⟩ := h.port_ok p rfl
    have hdw : (portTail (some p)).dropWhile (fun c => !(c == ':')) = ':' :: p := by
      simp [portTail]
    rw [hdw]
    simp only [parsePortPart]
    rw [if_neg hp1, if_pos hp2, if_neg hp3]

/-! ### Scheduler invariants -/

theorem startLoop_st_q (conc : Nat) : ∀ (q fl st : List Nat),
    (startLoop conc q fl st).2.2 ++ (startLoop conc q fl st).1 = st ++ q := by
  intro q
  induction q with
  | nil => intro fl st; simp [startLoop]
  | cons id rest ih =>
    intro fl st
    by_cases h : fl.length < conc
    · simp only [startLoop, if_pos h]
      rw [ih]
      simp
    · simp [startLoop, if_neg h]

theorem startLoop_facts (conc : Nat) : ∀ (q fl st : List Nat),
    (startLoop conc q fl st).2.1.length + st.length
        = fl.length + (startLoop conc q fl st).2.2.length ∧
    fl.length ≤ (startLoop conc q fl st).2.1.length ∧
    (fl.length ≤ conc → (startLoop conc q fl st).2.1.length ≤ conc) ∧
    ((startLoop conc q fl st).1 ≠ [] → conc ≤ (startLoop conc q fl st).2.1.length) ∧
    (q ≠ [] → fl.length < conc → st.length < (startLoop conc q fl st).2.2.length) := by
  intro q
  induction q with
  | nil => intro fl st; simp [startLoop]
  | cons id rest ih =>
    intro fl st
    by_cases h : fl.length < conc
    · obtain ⟨t1, t2, t3, t4, t5⟩ := ih (fl ++ [id]) (st ++ [id])
      simp only [startLoop, if_pos h]
      simp only [List.length_append, List.length_cons, List.length_nil] at t1 t2 t3 t4 ⊢
      refine ⟨by omega, by omega, fun hc => ?_, t4, fun _ _ => by omega⟩
      have := t3 (by omega)
      omega
    · have heq : startLoop conc (id :: rest) fl st = (id :: rest, fl, st) := by
        simp only [startLoop, if_neg h]
      rw [heq]
      refine ⟨?_, ?_, ?_, ?_, ?_⟩
      · show fl.length + st.length = fl.length + st.length
        rfl
      · show fl.length ≤ fl.length
        exact Nat.le_refl _
      · intro h2
        exact h2
      · intro _
        show conc ≤ fl.length
        omega
      · intro _ hlt
        exact absurd hlt h

theorem processNext_inv (conc : Nat) (ids : List Nat) (s : SchedState)
    (h1 : s.started ++ s.queue = ids)
    (h2 : s.inFlight.length + s.finished.length = s.started.length)
    (h3 : s.inFlight.length ≤ conc)
    (h5 : s.resolveCount = 0) :
    SchedInv conc ids (processNext conc s) ∧
    (processNext conc s).finished = s.finished ∧
    (s.queue ≠ [] → s.inFlight.length < conc →
      s.started.length < (processNext conc s).started.length) := by
  have hfacts := startLoop_facts conc s.queue s.inFlight s.started
  have hstq := startLoop_st_q conc s.queue s.inFlight s.started
  rcases hsl : startLoop conc s.queue s.inFlight s.started with ⟨q, fl, st⟩
  rw [hsl] at hfacts hstq
  simp only at hfacts hstq
  obtain ⟨hbal, hmono, hle, hstop, hgrow⟩ := hfacts
  simp only [processNext]
  rw [hsl]
  dsimp only
  by_cases hres : (fl.isEmpty && q.isEmpty) = true
  · rw [if_pos hres]
    rw [Bool.and_eq_true, List.isEmpty_iff, List.isEmpty_iff] at hres
    obtain ⟨hfl, hq⟩ := hres
    subst hfl hq
    refine ⟨⟨?_, ?_, ?_, ?_, ?_⟩, rfl, ?_⟩
    · rw [← h1, ← hstq]
    · simp only [List.length_nil] at hbal ⊢
      omega
    · simp
    · simp
    · simp [h5]
    · intro hq hlt
      simpa using hgrow hq hlt
  · rw [if_neg hres]
    rw [Bool.and_eq_true, List.isEmpty_iff, List.isEmpty_iff] at hres
    refine ⟨⟨?_, ?_, ?_, ?_, ?_⟩, rfl, ?_⟩
    · show st ++ q = ids
      exact hstq.trans h1
    · show fl.length + s.finished.length = st.length
      omega
    · show fl.length ≤ conc
      exact hle h3
    · show q ≠ [] → fl.length = conc
      intro hq
      have := hstop hq
      have := hle h3
      omega
    · show s.resolveCount = if q = [] ∧ fl = [] then 1 else 0
      have hcond : ¬(q = [] ∧ fl = []) := fun hc => hres ⟨hc.2, hc.1⟩
      rw [if_neg hcond]
      exact h5
    · intro hq hlt
      exact hgrow hq hlt

theorem processNext_finished (conc : Nat) (s : SchedState) :
    (processNext conc s).finished = s.finished := by
  simp only [processNext]
  split <;> rfl

theorem schedInv_finished_le (conc : Nat) (ids : List Nat) (s : SchedState)
    (h : SchedInv conc ids s) : s.finished.length ≤ ids.length := by
  obtain ⟨h1, h2, -, -, -⟩ := h
  have hst : s.started.length ≤ ids.length := by
    rw [← h1]
    simp
  omega

theorem settleState_len (s : SchedState) (i : Nat) (hfl : s.inFlight.length ≠ 0) :
    (settleState s i).inFlight.length = s.inFlight.length - 1 := by
  show (s.inFlight.eraseIdx (i % s.inFlight.length)).length = _
  rw [List.length_eraseIdx_of_lt (Nat.mod_lt _ (Nat.pos_of_ne_zero hfl))]

theorem finishStep_inv (conc : Nat) (ids : List Nat) (s : SchedState) (i : Nat)
    (h : SchedInv conc ids s) : SchedInv conc ids (finishStep conc s i) := by
  obtain ⟨h1, h2, h3, h4, h5⟩ := h
  unfold finishStep
  by_cases hfl : s.inFlight.length = 0
  · rw [if_pos hfl]
    exact ⟨h1, h2, h3, h4, h5⟩
  · rw [if_neg hfl]
    have hlen := settleState_len s i hfl
    have hflne : s.inFlight ≠ [] := by
      intro hcon
      rw [hcon] at hfl
      exact hfl rfl
    have hcount : s.resolveCount = 0 := by
      rw [h5, if_neg]
      rintro ⟨-, hcon⟩
      exact hflne hcon
    have hfin : (settleState s i).finished.length = s.finished.length + 1 := by
      show (s.finished ++ [_]).length = _
      simp
    by_cases hq : (settleState s i).queue.isEmpty = true
    · rw [if_pos hq]
      have hqe : s.queue = [] := List.isEmpty_iff.mp hq
      by_cases hfe : (settleState s i).inFlight.isEmpty = true
      · rw [if_pos hfe]
        have hfe' : (settleState s i).inFlight = [] := List.isEmpty_iff.mp hfe
        refine ⟨?_, ?_, ?_, ?_, ?_⟩
        · exact h1
        · show (settleState s i).inFlight.length + (settleState s i).finished.length
              = s.started.length
          rw [hlen, hfin]
          omega
        · show (settleState s i).inFlight.length ≤ conc
          rw [hlen]
          omega
        · intro hq2
          exact absurd hqe hq2
        · show (settleState s i).resolveCount + 1 = _
          rw [if_pos ⟨hqe, hfe'⟩]
          show s.resolveCount + 1 = 1
          rw [hcount]
      · rw [if_neg hfe]
        have hfe' : (settleState s i).inFlight ≠ [] := by
          intro hcon
          rw [List.isEmpty_iff] at hfe
          exact hfe hcon
        refine ⟨h1, ?_, ?_, ?_, ?_⟩
        · show (settleState s i).inFlight.length + (settleState s i).finished.length
              = s.started.length
          rw [hlen, hfin]
          omega
        · show (settleState s i).inFlight.length ≤ conc
          rw [hlen]
          omega
        · intro hq2
          exact absurd hqe hq2
        · show (settleState s i).resolveCount = _
          rw [if_neg (fun hc => hfe' hc.2)]
          exact hcount
    · rw [if_neg hq]
      have hqne : s.queue ≠ [] := by
        intro hcon
        rw [List.isEmpty_iff] at hq
        exact hq hcon
      refine (processNext_inv conc ids (settleState s i) h1 ?_ ?_ ?_).1
      · show (settleState s i).inFlight.length + (settleState s i).finished.length
            = s.started.length
        rw [hlen, hfin]
        omega
      · show (settleState s i).inFlight.length ≤ conc
        rw [hlen]
        omega
      · exact hcount

theorem foldl_finish_inv (conc : Nat) (ids : List Nat) (sched : List Nat) :
    ∀ s, SchedInv conc ids s → SchedInv conc ids (sched.foldl (finishStep conc) s) := by
  induction sched with
  | nil => intro s h; exact h
  | cons i rest ih =>
    intro s h
    exact ih _ (finishStep_inv conc ids s i h)

theorem initial_inv (conc : Nat) (ids : List Nat) :
    SchedInv conc ids (processNext conc (initSched ids)) :=
  (processNext_inv conc ids (initSched ids) rfl rfl (Nat.zero_le _) rfl).1

theorem runSched_inv (conc : Nat) (ids : List Nat) (sched : List Nat) :
    SchedInv conc ids (runSched conc ids sched) :=
  foldl_finish_inv conc ids sched _ (initial_inv conc ids)

/-- With `conc ≥ 1`, a settle event makes strict progress while work
remains, and is a no-op once every id is finished. -/
theorem finishStep_finished (conc : Nat) (ids : List Nat) (s : SchedState) (i : Nat)
    (hC : 1 ≤ conc) (h : SchedInv conc ids s) :
    (s.finished.length < ids.length →
      (finishStep conc s i).finished.length = s.finished.length + 1) ∧
    (ids.length ≤ s.finished.length → finishStep conc s i = s) := by
  obtain ⟨h1, h2, h3, h4, h5⟩ := h
  have hst : s.started.length ≤ ids.length := by
    rw [← h1]
    simp
  constructor
  · intro hlt
    have hflne : s.inFlight.length ≠ 0 := by
      intro hcon
      have hqne : s.queue ≠ [] := by
        intro hq
        rw [hq, List.append_nil] at h1
        have : s.started.length = ids.length := by rw [h1]
        omega
      have := h4 hqne
      omega
    unfold finishStep
    rw [if_neg hflne]
    have hfin : (settleState s i).finished.length = s.finished.length + 1 := by
      show (s.finished ++ [_]).length = _
      simp
    by_cases hq : (settleState s i).queue.isEmpty = true
    · rw [if_pos hq]
      by_cases hfe : (settleState s i).inFlight.isEmpty = true
      · rw [if_pos hfe]
        exact hfin
      · rw [if_neg hfe]
        exact hfin
    · rw [if_neg hq]
      rw [processNext_finished]
      exact hfin
  · intro hge
    have hfl0 : s.inFlight.length = 0 := by omega
    unfold finishStep
    rw [if_pos hfl0]

theorem foldl_finished_count (conc : Nat) (ids : List Nat) (hC : 1 ≤ conc) :
    ∀ (sched : List Nat) (s : SchedState), SchedInv conc ids s →
      (sched.foldl (finishStep conc) s).finished.length
        = min (s.finished.length + sched.length) ids.length := by
  intro sched
  induction sched with
  | nil =>
    intro s h
    have := schedInv_finished_le conc ids s h
    simp only [List.foldl_nil, List.length_nil, Nat.add_zero]
    omega
  | cons i rest ih =>
    intro s h
    simp only [List.foldl_cons, List.length_cons]
    by_cases hlt : s.finished.length < ids.length
    · rw [ih _ (finishStep_inv conc ids s i h)]
      rw [(finishStep_finished conc ids s i hC h).1 hlt]
      omega
    · rw [(finishStep_finished conc ids s i hC h).2 (Nat.le_of_not_lt hlt), ih _ h]
      have := schedInv_finished_le conc ids s h
      omega

theorem runSched_append (conc : Nat) (ids sched : List Nat) (i : Nat) :
    runSched conc ids (sched ++ [i]) = finishStep conc (runSched conc ids sched) i := by
  unfold runSched
  rw [List.foldl_append]
  rfl

/-! ### Support lemmas for the e-mail validator -/

theorem splitOnChar_getD_zero (sep : Char) (l : List Char) :
    (splitOnChar sep l).getD 0 [] = l.takeWhile (fun c => !(c == sep)) := by
  induction l with
  | nil => simp [splitOnChar]
  | cons c rest ih =>
    rcases hs : splitOnChar sep rest with _ | ⟨h, t⟩
    · exact absurd hs (splitOnChar_ne_nil sep rest)
    · rw [hs] at ih
      by_cases hc : c = sep
      · subst hc
        simp [splitOnChar, hs]
      · simp only [splitOnChar, hs, if_neg hc, List.getD_cons_zero, List.takeWhile_cons]
        simp only [List.getD_cons_zero] at ih
        simp [hc, ih]

theorem splitOnChar_getD_one (sep : Char) (l : List Char) :
    (splitOnChar sep l).getD 1 [] =
      ((l.dropWhile (fun c => !(c == sep))).drop 1).takeWhile (fun c => !(c == sep)) := by
  induction l with
  | nil => simp [splitOnChar]
  | cons c rest ih =>
    rcases hs : splitOnChar sep rest with _ | ⟨h, t⟩
    · exact absurd hs (splitOnChar_ne_nil sep rest)
    · by_cases hc : c = sep
      · have hpred : ((c == sep) : Bool) = true := by simp [hc]
        have hz := splitOnChar_getD_zero sep rest
        rw [hs] at hz
        simp only [List.getD_cons_zero] at hz
        simp only [splitOnChar, hs, if_pos hc, List.getD_cons_succ, List.getD_cons_zero,
          List.dropWhile_cons, hpred, Bool.not_true]
        simp [hz]
      · have hpred : ((c == sep) : Bool) = false := by simp [hc]
        simp only [splitOnChar, hs, if_neg hc, List.getD_cons_succ, List.dropWhile_cons,
          hpred, Bool.not_false]
        rw [hs] at ih
        simpa using ih

/-! ### Support lemmas for the candidate loop and the privacy-link scan -/

theorem tryCandidates_first (env : JsEnv) (es : List String) :
    ∀ (pre : List String) (c html : String) (post : List String),
      (∀ u ∈ pre, env.fetchAvail u = none) → env.fetchAvail c = some html →
      tryCandidates env es (pre ++ c :: post) =
        (pre ++ [c], some c, collectEmailsFromHtml env html es) := by
  intro pre
  induction pre with
  | nil =>
    intro c html post _ hc
    simp [tryCandidates, hc]
  | cons p rest ih =>
    intro c html post hpre hc
    have hp : env.fetchAvail p = none := hpre p (by simp)
    have ih2 := ih c html post (fun u hu => hpre u (by simp [hu])) hc
    simp only [List.cons_append, tryCandidates, hp]
    rw [show rest.append (c :: post) = rest ++ c :: post from rfl, ih2]

theorem findPrivacyLinkGo_skip (resolve : String → String → Option String) (origin : String) :
    ∀ (l rest : List Anchor), (∀ b ∈ l, anchorMatches b = false) →
      findPrivacyLinkGo resolve origin (l ++ rest) = findPrivacyLinkGo resolve origin rest := by
  intro l
  induction l with
  | nil => intro rest _; rfl
  | cons b bs ih =>
    intro rest hl
    have hb : anchorMatches b = false := hl b (by simp)
    simp only [List.cons_append, findPrivacyLinkGo, hb, Bool.false_eq_true, if_neg
      (by simp : ¬False)]
    exact ih rest (fun x hx => hl x (by simp [hx]))

theorem findPrivacyLinkGo_none (resolve : String → String → Option String) (origin : String) :
    ∀ l : List Anchor, (∀ b ∈ l, anchorMatches b = false) →
      findPrivacyLinkGo resolve origin l = none := by
  intro l hl
  have := findPrivacyLinkGo_skip resolve origin l [] hl
  rw [List.append_nil] at this
  rw [this]
  rfl

/-! ## Claim theorems -/

/-- C9: `normalizeOrigin` is idempotent: parsing failures pass the input
through unchanged, and the origin of a parsed URL re-parses to the same
origin. -/
theorem normalizeOrigin_idempotent (rawUrl : String) :
    normalizeOrigin (normalizeOrigin rawUrl) = normalizeOrigin rawUrl := by
  rcases hp : parseUrlChars rawUrl.data with _ | u
  · have h0 : normalizeOrigin rawUrl = rawUrl := by
      unfold normalizeOrigin
      rw [hp]
    rw [h0, h0]
  · have h1 : normalizeOrigin rawUrl = String.mk (originChars u) := by
      unfold normalizeOrigin
      rw [hp]
    rw [h1]
    have h2 : parseUrlChars (String.mk (originChars u)).data = some u :=
      parseUrlChars_originChars u (parseUrlChars_wf _ _ hp)
    unfold normalizeOrigin
    rw [h2]

/-- C2 counterexample: the code's `split("@")[1]` takes the segment after
the FIRST `@`, not the substring after the last `@`.  On `"a@b@c.png"` the
code accepts (`"b"` is not an asset extension) while the claim's last-`@`
reading rejects (`"png"` is). -/
theorem isLikelyEmail_firstAt_counterexample :
    isLikelyEmail "a@b@c.png" = true ∧ isLikelyEmailLastAt "a@b@c.png" = false := by
  constructor <;> rfl

/-- C2 (amended): `isLikelyEmail` lower-cases (and trims) its argument,
returns `false` without an `@`, and otherwise rejects exactly when the final
dot-separated segment of the substring after the FIRST `@` (up to the next
`@`) is a static-asset extension; the three examples evaluate as claimed. -/
theorem isLikelyEmail_spec :
    (∀ s : String, isLikelyEmail s =
      ((lowerL (jsTrimL s.data)).contains '@' &&
        !(ASSET_EXTENSIONS.contains (lastDotSegment (afterFirstAt (lowerL (jsTrimL s.data))))))) ∧
    isLikelyEmail "icon@3x.png" = false ∧
    isLikelyEmail "privacy@example.com" = true ∧
    isLikelyEmail "PRIVACY@EXAMPLE.COM" = true := by
  refine ⟨?_, rfl, rfl, rfl⟩
  intro s
  unfold isLikelyEmail isLikelyEmailL
  by_cases hq : (lowerL (jsTrimL s.data)).contains '@' = true
  · simp only [hq, Bool.not_true, Bool.true_and]
    rw [if_neg (by simp)]
    unfold lastDotSegment afterFirstAt
    rw [← splitOnChar_getD_one]
  · rw [Bool.not_eq_true] at hq
    rw [hq]
    rfl

/-- C4: per-entry processing — an empty discovery result yields
`no_results`; any other result yields `done` with `privacyUrl` and the
e-mail list persisted; a thrown discovery is caught locally, writing
`error` with the message truncated to 500 characters; in every case the
pipeline returns normally instead of propagating an exception. -/
theorem scrapeEntry_spec :
    (∀ (e : Entry) (disc : Except String ScrapeResult), ∃ e2, scrapeEntryE e disc = .ok e2) ∧
    (∀ (e : Entry) (r : ScrapeResult), (jsFalsyOpt r.privacyUrl && r.emails.isEmpty) = true →
      scrapeEntryE e (.ok r) = .ok (updNoResults (updInProgress e))) ∧
    (∀ (e : Entry) (r : ScrapeResult), (jsFalsyOpt r.privacyUrl && r.emails.isEmpty) = false →
      scrapeEntryE e (.ok r) = .ok (updDone (updInProgress e) r.privacyUrl r.emails)) ∧
    (∀ (e : Entry) (msg : String),
      scrapeEntryE e (.error msg) = .ok (updError (updInProgress e) (msg.take 500))) := by
  refine ⟨?_, ?_, ?_, ?_⟩
  · intro e disc
    rcases disc with msg | r
    · exact ⟨_, rfl⟩
    · unfold scrapeEntryE
      by_cases hc : (jsFalsyOpt r.privacyUrl && r.emails.isEmpty) = true
      · rw [show scrapeBody e (.ok r) = .ok (updNoResults (updInProgress e)) from by
          simp only [scrapeBody]
          rw [if_pos hc]]
        exact ⟨_, rfl⟩
      · rw [show scrapeBody e (.ok r)
              = .ok (updDone (updInProgress e) r.privacyUrl r.emails) from by
          simp only [scrapeBody]
          rw [if_neg hc]]
        exact ⟨_, rfl⟩
  · intro e r hc
    unfold scrapeEntryE
    rw [show scrapeBody e (.ok r) = .ok (updNoResults (updInProgress e)) from by
      simp only [scrapeBody]
      rw [if_pos hc]]
  · intro e r hc
    unfold scrapeEntryE
    rw [show scrapeBody e (.ok r)
        = .ok (updDone (updInProgress e) r.privacyUrl r.emails) from by
      simp only [scrapeBody]
      rw [if_neg (by simp [hc])]]
  · intro e msg
    rfl

/-- C10: the `no_results` update writes only `status` — an entry's
`privacyUrl` and `scrapedEmails` from an earlier discovery survive with
status `no_results` — and the `in_progress` transition clears only
`errorMessage`. -/
theorem scrapeEntry_frame_spec :
    (∀ e : Entry, (updNoResults e).privacyUrl = e.privacyUrl ∧
      (updNoResults e).scrapedEmails = e.scrapedEmails ∧
      (updNoResults e).errorMessage = e.errorMessage ∧
      (updNoResults e).url = e.url ∧ (updNoResults e).status = "no_results") ∧
    (∀ e : Entry, (updInProgress e).privacyUrl = e.privacyUrl ∧
      (updInProgress e).scrapedEmails = e.scrapedEmails ∧
      (updInProgress e).url = e.url ∧ (updInProgress e).status = "in_progress" ∧
      (updInProgress e).errorMessage = none) ∧
    (∀ (e : Entry) (r : ScrapeResult), (jsFalsyOpt r.privacyUrl && r.emails.isEmpty) = true →
      ∃ e2, scrapeEntryE e (.ok r) = .ok e2 ∧ e2.privacyUrl = e.privacyUrl ∧
        e2.scrapedEmails = e.scrapedEmails ∧ e2.status = "no_results") := by
  refine ⟨?_, ?_, ?_⟩
  · intro e
    exact ⟨rfl, rfl, rfl, rfl, rfl⟩
  · intro e
    exact ⟨rfl, rfl, rfl, rfl, rfl⟩
  · intro e r hc
    refine ⟨updNoResults (updInProgress e), ?_, rfl, rfl, rfl⟩
    unfold scrapeEntryE
    rw [show scrapeBody e (.ok r) = .ok (updNoResults (updInProgress e)) from by
      simp only [scrapeBody]
      rw [if_pos hc]]

/-- C1: `findPrivacyPolicyAndEmails` never raises — every path returns a
result; when the first discovery attempt throws, the intermediate result
collapses to `{privacyUrl: null, emails: []}`; and when the widening
(parent-domain) attempt throws, the first attempt's result is returned
unchanged. -/
theorem findPrivacyPolicyAndEmails_spec
    (scrape : String → Bool → Except String ScrapeResult) (rawUrl : String) :
    (∃ r, findPrivacyPolicyAndEmailsE scrape rawUrl = .ok r) ∧
    (∀ e, scrape (normalizeOrigin rawUrl) true = .error e →
      firstAttemptResult scrape rawUrl = ⟨none, []⟩) ∧
    (∀ m e2, getMainDomainOrigin (normalizeOrigin rawUrl) = some m →
      scrape m false = .error e2 →
      findPrivacyPolicyAndEmailsE scrape rawUrl = .ok (firstAttemptResult scrape rawUrl)) := by
  refine ⟨?_, ?_, ?_⟩
  · unfold findPrivacyPolicyAndEmailsE
    by_cases hs : (jsFalsyOpt (firstAttemptResult scrape rawUrl).privacyUrl &&
        (firstAttemptResult scrape rawUrl).emails.isEmpty &&
        originHasSubdomain (normalizeOrigin rawUrl)) = true
    · rw [if_pos hs]
      rcases hm : getMainDomainOrigin (normalizeOrigin rawUrl) with _ | m
      · exact ⟨_, rfl⟩
      · rcases hsc : scrape m false with e2 | mr
        · simp only [hsc]
          exact ⟨_, rfl⟩
        · simp only [hsc]
          exact ⟨_, rfl⟩
    · rw [if_neg hs]
      exact ⟨_, rfl⟩
  · intro e he
    unfold firstAttemptResult
    rw [he]
  · intro m e2 hm he2
    unfold findPrivacyPolicyAndEmailsE
    by_cases hs : (jsFalsyOpt (firstAttemptResult scrape rawUrl).privacyUrl &&
        (firstAttemptResult scrape rawUrl).emails.isEmpty &&
        originHasSubdomain (normalizeOrigin rawUrl)) = true
    · rw [if_pos hs]
      simp only [hm, he2]
    · rw [if_neg hs]

/-- C1 witness: a network where everything throws, on a subdomain origin —
both attempts fail, the wrapper still returns, with the empty result. -/
theorem findPrivacyPolicyAndEmails_spec_witness :
    findPrivacyPolicyAndEmailsE scrapeFailAll "https://us.example.com" = .ok ⟨none, []⟩ ∧
    firstAttemptResult scrapeFailAll "https://us.example.com" = ⟨none, []⟩ := by
  have h := findPrivacyPolicyAndEmails_spec scrapeFailAll "https://us.example.com"
  have hfirst := h.2.1 "network down" rfl
  have hmain := h.2.2 "https://example.com" "network down" rfl rfl
  rw [hmain, hfirst]
  exact ⟨rfl, rfl⟩

/-- C7 counterexample: a dotted-decimal IPv4 host is reported as having a
subdomain — `originHasSubdomain("https://1.2.3.4")` is `true`, where the
claim's "IPv4 hosts never count as subdomains" predicts `false`. -/
theorem originHasSubdomain_ipv4_counterexample :
    originHasSubdomain "https://1.2.3.4" = true := by
  rfl

/-- C7 (amended): `originHasSubdomain` is true exactly when the origin
parses and the (lower-cased) hostname has more than two dot-separated
labels — with no carve-out for IP literals, so dotted IPv4 hosts count;
`https://a.b.example.com` is true and `https://example.com` false. -/
theorem originHasSubdomain_spec :
    (∀ origin : String, originHasSubdomain origin = true ↔
      ∃ u, parseUrlChars origin.data = some u ∧ 2 < (splitOnChar '.' u.host).length) ∧
    originHasSubdomain "https://a.b.example.com" = true ∧
    originHasSubdomain "https://example.com" = false ∧
    originHasSubdomain "no-scheme-here" = false := by
  refine ⟨?_, rfl, rfl, rfl⟩
  intro origin
  unfold originHasSubdomain
  rcases hp : parseUrlChars origin.data with _ | u
  · simp
  · simp

/-- C8: `getMainDomainOrigin` strips the leftmost hostname label and keeps
the scheme, returning `null` when the hostname has at most two labels or
the origin does not parse; `https://us.example.com` widens to
`https://example.com`. -/
theorem getMainDomainOrigin_spec (origin : String) (u : UrlRec)
    (h : parseUrlChars origin.data = some u) :
    ((splitOnChar '.' u.host).length ≤ 2 → getMainDomainOrigin origin = none) ∧
    (2 < (splitOnChar '.' u.host).length →
      getMainDomainOrigin origin = some (String.mk (u.scheme ++ ':' :: '/' :: '/' ::
        joinDots ((splitOnChar '.' u.host).drop 1)))) ∧
    (∀ o2 : String, parseUrlChars o2.data = none → getMainDomainOrigin o2 = none) ∧
    getMainDomainOrigin "https://us.example.com" = some "https://example.com" := by
  refine ⟨?_, ?_, ?_, rfl⟩
  · intro hle
    unfold getMainDomainOrigin
    simp only [h]
    rw [if_pos hle]
  · intro hgt
    unfold getMainDomainOrigin
    simp only [h]
    rw [if_neg (by omega)]
  · intro o2 h2
    unfold getMainDomainOrigin
    simp only [h2]

/-- C8 witness: the concrete widening example, through the parser. -/
theorem getMainDomainOrigin_spec_witness :
    parseUrlChars "https://us.example.com".data
        = some ⟨"https".data, "us.example.com".data, none⟩ ∧
    getMainDomainOrigin "https://us.example.com" = some "https://example.com" := by
  exact ⟨rfl, (getMainDomainOrigin_spec "https://us.example.com"
    ⟨"https".data, "us.example.com".data, none⟩ rfl).2.2.2⟩

/-- C5: with no privacy link from the homepage, `scrapeOrigin` walks
exactly the five `buildPrivacyCandidates` URLs (origin stripped of trailing
slashes, the five fixed suffixes in order): every candidate before the
first fetchable one is fetched and skipped, the first fetchable candidate
becomes `privacyUrl` and its content's e-mails are collected, and no later
candidate is fetched. -/
theorem scrapeOrigin_candidates_spec (env : JsEnv) (origin : String) (es : List String)
    (pre post : List String) (c html : String)
    (hsplit : buildPrivacyCandidates origin = pre ++ c :: post)
    (hpre : ∀ u ∈ pre, env.fetchAvail u = none)
    (hc : env.fetchAvail c = some html) :
    (∀ o2 : String,
      buildPrivacyCandidates o2 =
        [stripTrailingSlashes o2 ++ "/privacy",
         stripTrailingSlashes o2 ++ "/privacy-policy",
         stripTrailingSlashes o2 ++ "/privacy_policy",
         stripTrailingSlashes o2 ++ "/legal/privacy",
         stripTrailingSlashes o2 ++ "/policies/privacy"]) ∧
    tryCandidates env es (buildPrivacyCandidates origin) =
      (pre ++ [c], some c, collectEmailsFromHtml env html es) ∧
    (env.fetchAvail origin = none →
      scrapeOrigin env origin = ⟨some c, collectEmailsFromHtml env html []⟩) ∧
    (∀ h0, env.fetchAvail origin = some h0 → findPrivacyLink env h0 origin = none →
      scrapeOrigin env origin =
        ⟨some c, collectEmailsFromHtml env html (collectEmailsFromHtml env h0 [])⟩) := by
  refine ⟨fun o2 => rfl, ?_, ?_, ?_⟩
  · rw [hsplit]
    exact tryCandidates_first env es pre c html post hpre hc
  · intro hfail
    unfold scrapeOrigin
    simp only [hfail, hsplit,
      tryCandidates_first env [] pre c html post hpre hc]
  · intro h0 hh0 hlink
    unfold scrapeOrigin
    simp only [hh0, hlink, hsplit,
      tryCandidates_first env (collectEmailsFromHtml env h0 []) pre c html post hpre hc]

/-- C5 witness: `/privacy` fails, `/privacy-policy` succeeds and is chosen
with no e-mails on the page. -/
theorem scrapeOrigin_candidates_spec_witness :
    buildPrivacyCandidates "https://site.example/" =
      ["https://site.example/privacy", "https://site.example/privacy-policy",
       "https://site.example/privacy_policy", "https://site.example/legal/privacy",
       "https://site.example/policies/privacy"] ∧
    scrapeOrigin envC5 "https://site.example/" =
      ⟨some "https://site.example/privacy-policy", []⟩ := by
  have h := scrapeOrigin_candidates_spec envC5 "https://site.example/" []
    ["https://site.example/privacy"] ["https://site.example/privacy_policy",
      "https://site.example/legal/privacy", "https://site.example/policies/privacy"]
    "https://site.example/privacy-policy" "<html>" (by decide) (by decide) rfl
  exact ⟨by decide, h.2.2.1 rfl⟩

/-- C6: `findPrivacyLink` scans the href-bearing anchors in document order
and returns the first whose visible text or href contains "privacy"
case-insensitively, resolved against the origin; it returns nothing when no
anchor matches. -/
theorem findPrivacyLink_spec (env : JsEnv) (htmlSrc : String) (origin : String) :
    ((∀ a ∈ (env.parse htmlSrc).anchors, a.href.isSome = true → anchorMatches a = false) →
      findPrivacyLink env htmlSrc origin = none) ∧
    (∀ (pre : List Anchor) (a : Anchor) (post : List Anchor) (href u : String),
      (env.parse htmlSrc).anchors = pre ++ a :: post →
      (∀ b ∈ pre, b.href.isSome = true → anchorMatches b = false) →
      a.href = some href → anchorMatches a = true →
      env.resolve origin href = some u →
      findPrivacyLink env htmlSrc origin = some u) := by
  constructor
  · intro hall
    unfold findPrivacyLink
    apply findPrivacyLinkGo_none
    intro b hb
    rw [List.mem_filter] at hb
    exact hall b hb.1 hb.2
  · intro pre a post href u hanch hpre hhref hmatch hres
    unfold findPrivacyLink
    rw [hanch, List.filter_append]
    have hsome : a.href.isSome = true := by
      rw [hhref]
      rfl
    rw [List.filter_cons, if_pos hsome]
    rw [findPrivacyLinkGo_skip env.resolve origin _ _ (fun b hb => by
      rw [List.mem_filter] at hb
      exact hpre b hb.1 hb.2)]
    unfold findPrivacyLinkGo
    rw [if_pos hmatch]
    have hgetD : a.href.getD "" = href := by
      rw [hhref]
      rfl
    rw [hgetD, hres]

/-- C6 witness: three anchors; the non-matching first is skipped, the
second matches on its text and resolves, the third is never considered. -/
theorem findPrivacyLink_spec_witness :
    findPrivacyLink envC6 "<html>" "https://x.example" = some "https://x.example/privacy" := by
  exact (findPrivacyLink_spec envC6 "<html>" "https://x.example").2
    [⟨some "/about", "About us"⟩] ⟨some "/privacy", "Privacy Policy"⟩
    [⟨some "/privacy-policy", "Also privacy"⟩] "/privacy" "https://x.example/privacy"
    rfl (by decide) rfl (by decide) rfl

/-- C3 (amended, concurrency ≥ 1): along any settle order, at most
`min(conc, remaining)` discoveries are in flight; ids are started in
submission order (`started` is always the consumed prefix of the input);
when one finishes while the queue is non-empty the next id starts
immediately; `resolve` has fired exactly once when — and only when — all
ids are finished, and never before; once as many settle events as ids have
occurred, the promise has resolved. -/
theorem processScrapeQueue_spec (conc : Nat) (ids sched : List Nat) (i : Nat)
    (hC : 1 ≤ conc) :
    (runSched conc ids sched).inFlight.length ≤
        min conc ((runSched conc ids sched).queue.length
          + (runSched conc ids sched).inFlight.length) ∧
    (runSched conc ids sched).started ++ (runSched conc ids sched).queue = ids ∧
    ((runSched conc ids sched).queue ≠ [] → (runSched conc ids sched).inFlight ≠ [] →
      (runSched conc ids sched).started.length
        < (runSched conc ids (sched ++ [i])).started.length) ∧
    ((runSched conc ids sched).resolveCount
        = if (runSched conc ids sched).queue = [] ∧ (runSched conc ids sched).inFlight = []
          then 1 else 0) ∧
    ((runSched conc ids sched).resolveCount = 1 ↔
      (runSched conc ids sched).finished.length = ids.length) ∧
    (ids.length ≤ sched.length → (runSched conc ids sched).resolveCount = 1) := by
  obtain ⟨h1, h2, h3, h4, h5⟩ := runSched_inv conc ids sched
  have hiff : (runSched conc ids sched).resolveCount = 1 ↔
      (runSched conc ids sched).finished.length = ids.length := by
    constructor
    · intro hr
      rw [h5] at hr
      by_cases hcond : (runSched conc ids sched).queue = []
          ∧ (runSched conc ids sched).inFlight = []
      · obtain ⟨hqe, hfe⟩ := hcond
        have hst : (runSched conc ids sched).started = ids := by
          conv_rhs => rw [← h1]
          rw [hqe, List.append_nil]
        rw [hfe] at h2
        simp only [List.length_nil, Nat.zero_add] at h2
        rw [h2, hst]
      · rw [if_neg hcond] at hr
        exact absurd hr (by omega)
    · intro hfin
      have hstle : (runSched conc ids sched).started.length ≤ ids.length := by
        conv_rhs => rw [← h1]
        simp
      have hfl0 : (runSched conc ids sched).inFlight.length = 0 := by omega
      have hfle : (runSched conc ids sched).inFlight = [] := List.length_eq_zero.mp hfl0
      have hlens := congrArg List.length h1
      simp only [List.length_append] at hlens
      have hqe : (runSched conc ids sched).queue = [] :=
        List.length_eq_zero.mp (by omega)
      rw [h5, if_pos ⟨hqe, hfle⟩]
  refine ⟨le_min h3 (by omega), h1, ?_, h5, hiff, ?_⟩
  · intro hq hf
    rw [runSched_append]
    have hfl : (runSched conc ids sched).inFlight.length ≠ 0 := by
      intro hcon
      exact hf (List.length_eq_zero.mp hcon)
    have hlen := settleState_len (runSched conc ids sched) i hfl
    have hfin : (settleState (runSched conc ids sched) i).finished.length
        = (runSched conc ids sched).finished.length + 1 := by
      show ((runSched conc ids sched).finished ++ [_]).length = _
      simp
    have hsat := h4 hq
    have hcount : (runSched conc ids sched).resolveCount = 0 := by
      rw [h5, if_neg (fun hcc => hq hcc.1)]
    unfold finishStep
    rw [if_neg hfl]
    rw [if_neg (fun hcc : (settleState (runSched conc ids sched) i).queue.isEmpty = true =>
      hq (List.isEmpty_iff.mp hcc))]
    have hsst : (settleState (runSched conc ids sched) i).started
        = (runSched conc ids sched).started := rfl
    have hgrow := (processNext_inv conc ids (settleState (runSched conc ids sched) i)
      h1 (by rw [hlen, hfin, hsst]; omega) (by rw [hlen]; omega) hcount).2.2
    exact hgrow hq (by rw [hlen]; omega)
  · intro hsched
    have hrun := foldl_finished_count conc ids hC sched
      (processNext conc (initSched ids)) (initial_inv conc ids)
    rw [processNext_finished conc (initSched ids)] at hrun
    have hfinal : (runSched conc ids sched).finished.length = ids.length := by
      show (sched.foldl (finishStep conc) (processNext conc (initSched ids))).finished.length = _
      rw [hrun]
      show min ((initSched ids).finished.length + sched.length) ids.length = _
      simp only [initSched, List.length_nil, Nat.zero_add]
      omega
    exact hiff.mpr hfinal

/-- C3 witness: two ids at concurrency 1 — after the initial start the
second id is queued with one in flight; the first settle starts it at once;
after two settles the promise has resolved. -/
theorem processScrapeQueue_spec_witness :
    ((runSched 1 [7, 8] []).started.length < (runSched 1 [7, 8] ([] ++ [0])).started.length) ∧
    (runSched 1 [7, 8] [0, 0]).resolveCount = 1 := by
  exact ⟨(processScrapeQueue_spec 1 [7, 8] [] 0 (by decide)).2.2.1 (by decide) (by decide),
    (processScrapeQueue_spec 1 [7, 8] [0, 0] 0 (by decide)).2.2.2.2.2 (by decide)⟩

/-- C3 counterexample: at concurrency 0 (still "for every concurrency C" in
the claim's words) the scheduler starts nothing, so with one queued id no
settle event can ever occur and the completion promise never resolves — no
schedule reaches `resolve`. -/
theorem processScrapeQueue_conc_zero_counterexample :
    ¬ ∃ sched : List Nat, (runSched 0 [1] sched).resolveCount = 1 := by
  have hstuck : ∀ i : Nat,
      finishStep 0 (processNext 0 (initSched [1])) i = processNext 0 (initSched [1]) := by
    intro i
    rfl
  have hall : ∀ sched : List Nat, runSched 0 [1] sched = processNext 0 (initSched [1]) := by
    intro sched
    unfold runSched
    induction sched with
    | nil => rfl
    | cons j rest ih =>
      rw [List.foldl_cons, hstuck j]
      exact ih
  rintro ⟨sched, hs⟩
  rw [hall sched] at hs
  exact absurd hs (by decide)

/-- C4 witness: an existing entry pushed through the three outcomes — empty
result, non-empty result, and a thrown discovery. -/
theorem scrapeEntry_spec_witness :
    (∃ e2, scrapeEntryE entStale (.ok ⟨none, []⟩) = .ok e2) ∧
    scrapeEntryE entStale (.ok ⟨none, []⟩) = .ok (updNoResults (updInProgress entStale)) ∧
    scrapeEntryE entStale (.ok ⟨some "https://x.example/privacy", ["a@x.example"]⟩)
      = .ok (updDone (updInProgress entStale) (some "https://x.example/privacy")
          ["a@x.example"]) ∧
    scrapeEntryE entStale (.error "HTTP 500 for https://x.example")
      = .ok (updError (updInProgress entStale)
          ("HTTP 500 for https://x.example".take 500)) := by
  exact ⟨scrapeEntry_spec.1 entStale _, scrapeEntry_spec.2.1 entStale _ rfl,
    scrapeEntry_spec.2.2.1 entStale _ rfl,
    scrapeEntry_spec.2.2.2 entStale "HTTP 500 for https://x.example"⟩

/-- C10 witness: an entry with stale discovery data keeps its `privacyUrl`
and `scrapedEmails` through an empty re-discovery that ends `no_results`. -/
theorem scrapeEntry_frame_spec_witness :
    ∃ e2, scrapeEntryE entStale (.ok ⟨none, []⟩) = .ok e2 ∧
      e2.privacyUrl = entStale.privacyUrl ∧ e2.scrapedEmails = entStale.scrapedEmails ∧
      e2.status = "no_results" :=
  scrapeEntry_frame_spec.2.2 entStale ⟨none, []⟩ rfl

end Passporter
